import Mathlib

/-!
Shallow embedding of the `brace_expand_2` crate
(tokenizer, AST builder, size estimator, odometer state machine,
iterator facade) together with theorems about its specification.

Rust `String` values are modelled as `List Char`; `usize` as `Nat`
(the counts involved never wrap in practice and the source performs no
modular arithmetic on them).
-/

set_option autoImplicit false

namespace BraceExpand

/-- `Token` from src/brace_expand_2/src/tokenizer.rs.
`Term` carries the literal text (a Rust `String`, modelled as `List Char`). -/
inductive Token where
| OpenBrace : Token
| CloseBrace : Token
| Comma : Token
| Term : List Char → Token
deriving DecidableEq, Repr

/-- Appending one character to the trailing `Term` token, starting a new
`Term` if the last token is not one.  This is the
`if let Some(Token::Term(s)) = tokens.last_mut() { s.push(c) } else { push(Term(c)) }`
idiom of `tokenize`; the accumulator list is kept in reverse order, so the
"last" Rust token is the head here. -/
def termPush (acc : List Token) (c : Char) : List Token :=
  match acc with
  | Token.Term s :: rest => Token.Term (s ++ [c]) :: rest
  | _ => Token.Term [c] :: acc

/-- The character loop of `tokenize` (src/brace_expand_2/src/tokenizer.rs).
`acc` holds the tokens emitted so far in reverse order and is reversed on
return; `esc_seq` is the `is_escape_seq` flag. -/
def tokenizeLoop : List Char → Bool → Bool → List Token → List Token
| [], _, _, acc => acc.reverse
| c :: cs, escape, esc_seq, acc =>
  if esc_seq then tokenizeLoop cs escape false (termPush acc c)
  else if c = '{' then tokenizeLoop cs escape false (Token.OpenBrace :: acc)
  else if c = '}' then tokenizeLoop cs escape false (Token.CloseBrace :: acc)
  else if c = ',' then tokenizeLoop cs escape false (Token.Comma :: acc)
  else if escape && c = '\\' then tokenizeLoop cs escape true acc
  else tokenizeLoop cs escape false (termPush acc c)

/-- `tokenize` from src/brace_expand_2/src/tokenizer.rs. -/
def tokenize (pattern : List Char) (escape : Bool) : List Token :=
  tokenizeLoop pattern escape false []

/-- `AstItem` from src/brace_expand_2/src/ast.rs.  `Ast` (a Rust
`Vec<AstItem>`) is `List AstItem`, so `choices` carries `List (List AstItem)`. -/
inductive AstItem where
| leaf : List Char → AstItem
| choices : List (List AstItem) → AstItem

/-- `Ast` type alias from src/brace_expand_2/src/ast.rs. -/
abbrev Ast := List AstItem

mutual

/-- `ast_from_tokens_partial` from src/brace_expand_2/src/ast.rs (the suffix
`_partial` of the Rust name is shortened to `_sub` here).  Returns the parsed
pattern and the number of tokens consumed.  The Rust `while` loop over an
index becomes structural recursion on the token list. -/
def ast_from_tokens_sub : List Token → Ast × Nat
| [] => ([], 0)
| Token.CloseBrace :: _ => ([], 0)
| Token.Comma :: _ => ([], 0)
| Token.Term s :: r =>
  let p := ast_from_tokens_sub r
  (AstItem.leaf s :: p.1, p.2 + 1)
| Token.OpenBrace :: r =>
  let c := choices_loop r
  let p := ast_from_tokens_sub (r.drop (c.2 + 1))
  (AstItem.choices c.1 :: p.1, 1 + c.2 + 1 + p.2)
termination_by ts => (ts.length, 0)
decreasing_by
· exact Prod.Lex.left _ _ (Nat.lt_succ_self _)
· exact Prod.Lex.left _ _ (Nat.lt_succ_self _)
· exact Prod.Lex.left _ _ (Nat.lt_succ_of_le ((List.length_drop _ _).le.trans (Nat.sub_le _ _)))

/-- The branch-collecting loop of `choices_from_tokens_partial` from
src/brace_expand_2/src/ast.rs.  Returns the branch list and the number of
tokens consumed (the count stops at, and excludes, the closing brace, exactly
as in the Rust loop).  After `ast_from_tokens_sub` the next unconsumed token
is a `CloseBrace`, a `Comma`, or past the end (theorem
`ast_from_tokens_sub_stop` below), so the final catch-all arm — which Rust
would re-enter the loop on — is unreachable for any actual input. -/
def choices_loop : List Token → List Ast × Nat
| [] => ([], 0)
| t :: ts =>
  let a := ast_from_tokens_sub (t :: ts)
  match (t :: ts).drop a.2 with
  | Token.CloseBrace :: _ => ([a.1], a.2)
  | Token.Comma :: _ =>
    let v := choices_loop ((t :: ts).drop (a.2 + 1))
    (a.1 :: v.1, a.2 + 1 + v.2)
  | _ => ([a.1], a.2)
termination_by ts => (ts.length, 1)
decreasing_by
· exact Prod.Lex.right _ (Nat.lt_succ_self 0)
· refine Prod.Lex.left _ _ ?_
  simp only [List.length_drop, List.length_cons]
  omega

end

/-- `choices_from_tokens_partial` from src/brace_expand_2/src/ast.rs:
wraps the branch list produced by the loop into an `AstItem::Choices`. -/
def choices_from_tokens_sub (tokens : List Token) : AstItem × Nat :=
  let v := choices_loop tokens
  (AstItem.choices v.1, v.2)

/-- `ast_from_tokens` from src/brace_expand_2/src/ast.rs.  The Rust error is
a formatted message "unexpected {token} at position {index}"; it is modelled
as the pair (offending token, its index). -/
def ast_from_tokens (tokens : List Token) : Except (Token × Nat) Ast :=
  let p := ast_from_tokens_sub tokens
  if h : p.2 < tokens.length then Except.error (tokens.get ⟨p.2, h⟩, p.2)
  else Except.ok p.1

mutual

/-- `ast_item_max_expansion_length` from src/brace_expand_2/src/ast.rs. -/
def ast_item_max_expansion_length : AstItem → Nat
| AstItem.leaf s => s.length
| AstItem.choices v => maxExpansionLengthList v

/-- `v.iter().map(ast_max_expansion_length).max().unwrap_or(0)` over a branch
list. -/
def maxExpansionLengthList : List (List AstItem) → Nat
| [] => 0
| b :: r => max (ast_max_expansion_length b) (maxExpansionLengthList r)

/-- `ast_max_expansion_length` from src/brace_expand_2/src/ast.rs. -/
def ast_max_expansion_length : List AstItem → Nat
| [] => 0
| it :: r => ast_item_max_expansion_length it + ast_max_expansion_length r

end

mutual

/-- `ast_item_num_expansions` from src/brace_expand_2/src/ast.rs. -/
def ast_item_num_expansions : AstItem → Nat
| AstItem.leaf _ => 1
| AstItem.choices v => numExpansionsList v

/-- `v.iter().map(ast_num_expansions).sum()` over a branch list. -/
def numExpansionsList : List (List AstItem) → Nat
| [] => 0
| b :: r => ast_num_expansions b + numExpansionsList r

/-- `ast_num_expansions` from src/brace_expand_2/src/ast.rs. -/
def ast_num_expansions : List AstItem → Nat
| [] => 1
| it :: r => ast_item_num_expansions it * ast_num_expansions r

end

mutual

/-- No `Choices` node with an empty branch list occurs in this item. -/
def itemNoEmptyChoices : AstItem → Bool
| AstItem.leaf _ => true
| AstItem.choices v => !v.isEmpty && listNoEmptyChoices v

/-- No empty-branch-list `Choices` occurs in any branch of the list. -/
def listNoEmptyChoices : List (List AstItem) → Bool
| [] => true
| b :: r => astNoEmptyChoices b && listNoEmptyChoices r

/-- No empty-branch-list `Choices` occurs anywhere in the pattern. -/
def astNoEmptyChoices : List AstItem → Bool
| [] => true
| it :: r => itemNoEmptyChoices it && astNoEmptyChoices r

end

/-- State machine node mirroring `AstItemStateMachine` from
src/brace_expand_2/src/state_machines.rs.  `leaf` is
`AstLeafItemStateMachine { contents, valid }`; `choices` is
`AstChoicesItemStateMachine { children, current_index }` where each child is
an `AstStateMachine`, i.e. a `List ItemSM`. -/
inductive ItemSM where
| leaf : List Char → Bool → ItemSM
| choices : List (List ItemSM) → Nat → ItemSM

/-- `AstStateMachine` from src/brace_expand_2/src/state_machines.rs is a
plain list of item state machines. -/
abbrev AstSM := List ItemSM

mutual

/-- `AstItemStateMachine::new` (dispatching to the leaf/choices
constructors) from src/brace_expand_2/src/state_machines.rs. -/
def newI : AstItem → ItemSM
| AstItem.leaf s => ItemSM.leaf s true
| AstItem.choices v => ItemSM.choices (newList v) 0

/-- Children construction for `AstChoicesItemStateMachine::new`. -/
def newList : List (List AstItem) → List (List ItemSM)
| [] => []
| b :: r => newA b :: newList r

/-- `AstStateMachine::new` from src/brace_expand_2/src/state_machines.rs. -/
def newA : List AstItem → List ItemSM
| [] => []
| it :: r => newI it :: newA r

end

mutual

/-- `reset` for item state machines
(src/brace_expand_2/src/state_machines.rs). -/
def resetI : ItemSM → ItemSM
| ItemSM.leaf s _ => ItemSM.leaf s true
| ItemSM.choices cs _ => ItemSM.choices (resetList cs) 0

/-- `reset` mapped over the children of a choices node. -/
def resetList : List (List ItemSM) → List (List ItemSM)
| [] => []
| b :: r => resetA b :: resetList r

/-- `AstStateMachine::reset` from src/brace_expand_2/src/state_machines.rs. -/
def resetA : List ItemSM → List ItemSM
| [] => []
| c :: r => resetI c :: resetA r

end

mutual

/-- `fill` for item state machines
(src/brace_expand_2/src/state_machines.rs): appends this node's current
contribution to the accumulator `target`. -/
def fillI : ItemSM → List Char → List Char
| ItemSM.leaf s valid, target => if valid then target ++ s else target
| ItemSM.choices cs idx, target => fillChildren cs idx target

/-- The `if current_index < children.len() { children[current_index].fill }`
step of the choices fill, with the index realized positionally: walk the
children list down to the index and fill from that child; past the end the
buffer is left unchanged. -/
def fillChildren : List (List ItemSM) → Nat → List Char → List Char
| [], _, target => target
| b :: _, 0, target => fillA b target
| _ :: r, n + 1, target => fillChildren r n target

/-- `AstStateMachine::fill` from src/brace_expand_2/src/state_machines.rs:
appends each child's contribution in order. -/
def fillA : List ItemSM → List Char → List Char
| [], target => target
| c :: r, target => fillA r (fillI c target)

end

mutual

/-- `advance` for item state machines
(src/brace_expand_2/src/state_machines.rs).  Returns the updated node and
the Rust boolean result.  A leaf unconditionally invalidates itself.  For a
choices node, `advanceChildren` realizes the in-place
`self.children[self.current_index].advance()`: `none` means the index was
out of range (the node is exhausted and left untouched); `some b` is the
child's advance result together with the updated children list.  On a
`false` child result `current_index` moves forward and the node stays valid
iff the new index is still in range. -/
def advanceI : ItemSM → ItemSM × Bool
| ItemSM.leaf s _ => (ItemSM.leaf s false, false)
| ItemSM.choices cs idx =>
  match advanceChildren cs idx with
  | (cs2, some true) => (ItemSM.choices cs2 idx, true)
  | (cs2, some false) => (ItemSM.choices cs2 (idx + 1), decide (idx + 1 < cs.length))
  | (_, none) => (ItemSM.choices cs idx, false)

/-- Advance the child at the given position, returning the updated children
list and `some` of the child's advance result, or `none` when the position
is past the end of the list. -/
def advanceChildren : List (List ItemSM) → Nat → List (List ItemSM) × Option Bool
| [], _ => ([], none)
| b :: r, 0 =>
  let rb := advanceA b
  (rb.1 :: r, some rb.2)
| b :: r, n + 1 =>
  let x := advanceChildren r n
  (b :: x.1, x.2)

/-- `AstStateMachine::advance` from
src/brace_expand_2/src/state_machines.rs: the odometer carry loop over the
children in reverse order, resetting each exhausted child and moving on to
the next-more-significant one. -/
def advanceA : List ItemSM → List ItemSM × Bool
| [] => ([], false)
| c :: rest =>
  let r := advanceA rest
  if r.2 then (c :: r.1, true)
  else
    let ci := advanceI c
    if ci.2 then (ci.1 :: r.1, true)
    else (resetI ci.1 :: r.1, false)

end

/-- `BraceExpandIterator` from src/brace_expand_2/src/lib.rs. -/
structure BraceExpandIterator where
  state_machine : AstSM
  is_done : Bool
  length_hint : Nat
  num_expansions_hint : Nat

/-- `BraceExpandIterator::next_into` from src/brace_expand_2/src/lib.rs.
Takes the caller's buffer, returns the Rust boolean, the buffer contents
after the call (the buffer is cleared before filling, so on a `true` return
its previous contents are irrelevant) and the updated iterator. -/
def next_into (it : BraceExpandIterator) (output : List Char) :
    Bool × List Char × BraceExpandIterator :=
  if it.is_done then (false, output, it)
  else
    let filled := fillA it.state_machine []
    let r := advanceA it.state_machine
    (true, filled, { it with state_machine := r.1, is_done := !r.2 })

/-- `Iterator::next` for `BraceExpandIterator` from
src/brace_expand_2/src/lib.rs (the allocating pull). -/
def nextIter (it : BraceExpandIterator) : Option (List Char) × BraceExpandIterator :=
  if it.is_done then (none, it)
  else
    let output := fillA it.state_machine []
    let r := advanceA it.state_machine
    (some output, { it with state_machine := r.1, is_done := !r.2 })

/-- `brace_expand_iter` from src/brace_expand_2/src/lib.rs. -/
def brace_expand_iter (input : List Char) (escape : Bool) :
    Except (Token × Nat) BraceExpandIterator :=
  match ast_from_tokens (tokenize input escape) with
  | Except.error e => Except.error e
  | Except.ok ast =>
    Except.ok
      { state_machine := newA ast
        is_done := false
        length_hint := ast_max_expansion_length ast
        num_expansions_hint := ast_num_expansions ast }

/-- The strings produced by repeatedly calling `Iterator::next`, with at
most `fuel` calls: collection stops at the first `None`. -/
def runNextL : Nat → BraceExpandIterator → List (List Char)
| 0, _ => []
| fuel + 1, it =>
  match nextIter it with
  | (none, _) => []
  | (some s, it2) => s :: runNextL fuel it2

/-- The buffer contents observed after each `next_into` call that returns
`true`, with at most `fuel` calls: collection stops at the first `false`. -/
def runNextIntoL : Nat → BraceExpandIterator → List Char → List (List Char)
| 0, _, _ => []
| fuel + 1, it, buf =>
  match next_into it buf with
  | (false, _, _) => []
  | (true, s, it2) => s :: runNextIntoL fuel it2 s

/-! ### Denotational expansion semantics

`ast_expansions` lists, in the enumeration order of the odometer (leftmost
item most significant, rightmost fastest varying), every string a pattern
expands to.  It is the specification against which the state machine is
verified. -/

/-- All concatenations `s ++ t` with `s` drawn from `E` (major) and `t`
drawn from `F` (minor), in order. -/
def prodExp (E F : List (List Char)) : List (List Char) :=
  E.flatMap (fun s => F.map (fun t => s ++ t))

mutual

/-- The expansions of a single AST item, in order. -/
def item_expansions : AstItem → List (List Char)
| AstItem.leaf s => [s]
| AstItem.choices v => branch_expansions v

/-- The expansions of a branch list: the branches' expansion lists
concatenated in branch order. -/
def branch_expansions : List (List AstItem) → List (List Char)
| [] => []
| b :: r => ast_expansions b ++ branch_expansions r

/-- The expansions of a pattern, in odometer order. -/
def ast_expansions : List AstItem → List (List Char)
| [] => [[]]
| it :: r => prodExp (item_expansions it) (ast_expansions r)

end

/-! ### Buffer-accumulator lemmas for `fill` -/

mutual

/-- `fill` only appends: filling into `target` is `target` followed by
what filling into an empty buffer yields (item version). -/
theorem fillI_acc (c : ItemSM) (target : List Char) :
    fillI c target = target ++ fillI c [] := by
  cases c with
  | leaf s valid =>
    cases valid <;> simp [fillI]
  | choices cs idx =>
    simp only [fillI]
    exact fillChildren_acc cs idx target

/-- `fill` only appends (choices-children version). -/
theorem fillChildren_acc (cs : List (List ItemSM)) (n : Nat) (target : List Char) :
    fillChildren cs n target = target ++ fillChildren cs n [] := by
  match cs, n with
  | [], _ => simp [fillChildren]
  | b :: r, 0 => simp only [fillChildren]; exact fillA_acc b target
  | b :: r, n + 1 => simp only [fillChildren]; exact fillChildren_acc r n target

/-- `fill` only appends (pattern version). -/
theorem fillA_acc (m : List ItemSM) (target : List Char) :
    fillA m target = target ++ fillA m [] := by
  match m with
  | [] => simp [fillA]
  | c :: r =>
    simp only [fillA]
    rw [fillA_acc r (fillI c target), fillI_acc c target,
      fillA_acc r (fillI c []), List.append_assoc]

end

/-! ### Reset lemmas -/

mutual

/-- Resetting is idempotent (item version). -/
theorem resetI_idem (c : ItemSM) : resetI (resetI c) = resetI c := by
  cases c with
  | leaf s valid => simp [resetI]
  | choices cs idx => simp only [resetI]; rw [resetList_idem]

/-- Resetting is idempotent (children version). -/
theorem resetList_idem (cs : List (List ItemSM)) : resetList (resetList cs) = resetList cs := by
  match cs with
  | [] => simp [resetList]
  | b :: r => simp only [resetList]; rw [resetA_idem, resetList_idem]

/-- Resetting is idempotent (pattern version). -/
theorem resetA_idem (m : List ItemSM) : resetA (resetA m) = resetA m := by
  match m with
  | [] => simp [resetA]
  | c :: r => simp only [resetA]; rw [resetI_idem, resetA_idem]

end

mutual

/-- A freshly constructed state machine is already in its reset state
(item version). -/
theorem resetI_newI (it : AstItem) : resetI (newI it) = newI it := by
  cases it with
  | leaf s => simp [newI, resetI]
  | choices v => simp only [newI, resetI]; rw [resetList_newList]

/-- A freshly constructed state machine is already in its reset state
(children version). -/
theorem resetList_newList (v : List (List AstItem)) : resetList (newList v) = newList v := by
  match v with
  | [] => simp [newList, resetList]
  | b :: r => simp only [newList, resetList]; rw [resetA_newA, resetList_newList]

/-- A freshly constructed state machine is already in its reset state
(pattern version). -/
theorem resetA_newA (l : List AstItem) : resetA (newA l) = newA l := by
  match l with
  | [] => simp [newA, resetA]
  | it :: r => simp only [newA, resetA]; rw [resetI_newI, resetA_newA]

end

mutual

/-- Advancing never changes what a node resets to (item version). -/
theorem resetI_advanceI (c : ItemSM) : resetI (advanceI c).1 = resetI c := by
  cases c with
  | leaf s valid => simp [advanceI, resetI]
  | choices cs idx =>
    have hch := resetList_advanceChildren cs idx
    simp only [advanceI]
    cases h : advanceChildren cs idx with
    | mk cs2 ob =>
      rw [h] at hch
      cases ob with
      | none => simp
      | some b => cases b <;> simp only [resetI] <;> rw [hch]

/-- Advancing never changes what a node resets to (children version). -/
theorem resetList_advanceChildren (cs : List (List ItemSM)) (n : Nat) :
    resetList (advanceChildren cs n).1 = resetList cs := by
  match cs, n with
  | [], _ => simp [advanceChildren]
  | b :: r, 0 =>
    simp only [advanceChildren, resetList]
    rw [resetA_advanceA]
  | b :: r, n + 1 =>
    simp only [advanceChildren, resetList]
    rw [resetList_advanceChildren r n]

/-- Advancing never changes what a machine resets to (pattern version). -/
theorem resetA_advanceA (m : List ItemSM) : resetA (advanceA m).1 = resetA m := by
  match m with
  | [] => simp [advanceA]
  | c :: rest =>
    simp only [advanceA]
    by_cases h : (advanceA rest).2
    · simp only [h, if_true, resetA]
      rw [resetA_advanceA rest]
    · simp only [h, if_false, Bool.false_eq_true]
      by_cases h2 : (advanceI c).2
      · simp only [h2, if_true, resetA]
        rw [resetI_advanceI c, resetA_advanceA rest]
      · simp only [h2, if_false, Bool.false_eq_true, resetA]
        rw [resetI_idem, resetI_advanceI c, resetA_advanceA rest]

end

/-- When a pattern machine's advance fails, the carry loop has reset every
child: the returned state is the reset state. -/
theorem advanceA_false (m : List ItemSM) (h : (advanceA m).2 = false) :
    (advanceA m).1 = resetA m := by
  match m with
  | [] => simp [advanceA, resetA]
  | c :: rest =>
    simp only [advanceA] at h ⊢
    by_cases h1 : (advanceA rest).2
    · simp [h1] at h
    · simp only [h1, if_false, Bool.false_eq_true] at h ⊢
      by_cases h2 : (advanceI c).2
      · simp [h2] at h
      · simp only [h2, if_false, Bool.false_eq_true, resetA]
        rw [resetI_advanceI c, advanceA_false rest (by simpa using h1)]

/-! ### Machine runs

`GenA m E` states that the pattern machine, started in state `m`, produces
exactly the strings `E`: each element is what `fill` renders, consecutive
elements are separated by a successful `advance`, and the list ends exactly
at the first failing `advance`.  `GenI` is the same for a single item node. -/

/-- The pattern machine starting at `m` renders exactly the strings `E`. -/
inductive GenA : List ItemSM → List (List Char) → Prop where
| last (m : List ItemSM) : (advanceA m).2 = false → GenA m [fillA m []]
| step (m : List ItemSM) (rest : List (List Char)) : (advanceA m).2 = true →
    GenA (advanceA m).1 rest → GenA m (fillA m [] :: rest)

/-- The item machine starting at `c` renders exactly the strings `E`. -/
inductive GenI : ItemSM → List (List Char) → Prop where
| last (c : ItemSM) : (advanceI c).2 = false → GenI c [fillI c []]
| step (c : ItemSM) (rest : List (List Char)) : (advanceI c).2 = true →
    GenI (advanceI c).1 rest → GenI c (fillI c [] :: rest)

/-- Filling a compound machine renders the head item then the tail. -/
theorem fillA_cons (c : ItemSM) (m : List ItemSM) :
    fillA (c :: m) [] = fillI c [] ++ fillA m [] := by
  show fillA m (fillI c []) = _
  rw [fillA_acc]

/-- A machine run never produces an empty list of strings. -/
theorem GenA.ne_nil {m : List ItemSM} {E : List (List Char)} (h : GenA m E) : E ≠ [] := by
  cases h <;> simp

/-- The empty pattern machine produces exactly the empty string once. -/
theorem genA_nil : GenA [] [[]] := by
  have h := GenA.last [] (by simp [advanceA])
  simpa [fillA] using h

/-- A fresh leaf machine produces exactly its contents once. -/
theorem genI_leaf (s : List Char) : GenI (ItemSM.leaf s true) [s] := by
  have h := GenI.last (ItemSM.leaf s true) (by simp [advanceI])
  simpa [fillI] using h

/-- Composition, exhausted-head case: when the head item cannot advance, a
run of the tail machine maps to a run of the compound machine with the
head's rendering prepended to every string. -/
theorem genA_cons_last (c : ItemSM) (hc : (advanceI c).2 = false)
    {m : List ItemSM} {F : List (List Char)} (hm : GenA m F) :
    GenA (c :: m) (F.map (fun t => fillI c [] ++ t)) := by
  induction hm with
  | last m hfail =>
    have h := GenA.last (c :: m) (by simp [advanceA, hfail, hc])
    simpa [fillA_cons] using h
  | step m rest hok hgen ih =>
    have hadv : (advanceA (c :: m)).1 = c :: (advanceA m).1 := by
      simp [advanceA, hok]
    have h := GenA.step (c :: m) (rest.map (fun t => fillI c [] ++ t))
      (by simp [advanceA, hok]) (by rw [hadv]; exact ih)
    simpa [fillA_cons] using h

/-- Composition, advancing-head case: when the head item can advance and the
compound machine continues as `T` from the advanced head over a pristine
tail, a run of the tail machine prefixed-maps and then continues as `T`. -/
theorem genA_cons_step (c : ItemSM) (hc : (advanceI c).2 = true)
    (m0 : List ItemSM) (T : List (List Char))
    (hT : GenA ((advanceI c).1 :: m0) T) :
    ∀ (m : List ItemSM) (F : List (List Char)), resetA m = m0 → GenA m F →
    GenA (c :: m) (F.map (fun t => fillI c [] ++ t) ++ T) := by
  intro m F hreset hm
  induction hm with
  | last m hfail =>
    have hmf : (advanceA m).1 = m0 := by rw [advanceA_false m hfail, hreset]
    have hadv1 : (advanceA (c :: m)).1 = (advanceI c).1 :: m0 := by
      simp [advanceA, hfail, hc, hmf]
    have h := GenA.step (c :: m) T (by simp [advanceA, hfail, hc])
      (by rw [hadv1]; exact hT)
    simpa [fillA_cons] using h
  | step m rest hok hgen ih =>
    have hreset2 : resetA (advanceA m).1 = m0 := by rw [resetA_advanceA, hreset]
    have hadv : (advanceA (c :: m)).1 = c :: (advanceA m).1 := by
      simp [advanceA, hok]
    have h := GenA.step (c :: m) (rest.map (fun t => fillI c [] ++ t) ++ T)
      (by simp [advanceA, hok]) (by rw [hadv]; exact ih hreset2)
    simpa [fillA_cons] using h

/-- Composition: a run of the head item times a run of a restartable tail
machine is a run of the compound machine producing the order-preserving
product. -/
theorem genA_cons {c : ItemSM} {E : List (List Char)} (hc : GenI c E)
    {m : List ItemSM} {F : List (List Char)} (hm : GenA m F)
    (hreset : resetA m = m) :
    GenA (c :: m) (prodExp E F) := by
  induction hc with
  | last c hfail =>
    have h := genA_cons_last c hfail hm
    simpa [prodExp] using h
  | step c rest hok hgen ih =>
    have hT := ih
    have h := genA_cons_step c hok m (prodExp rest F) hT m F hreset hm
    simpa [prodExp] using h

/-- Positional fill over an appended children list reads the marked child. -/
theorem fillChildren_append (pre : List (List ItemSM)) (m : List ItemSM)
    (post : List (List ItemSM)) (target : List Char) :
    fillChildren (pre ++ m :: post) pre.length target = fillA m target := by
  induction pre with
  | nil => simp [fillChildren]
  | cons b r ih => simpa only [List.cons_append, List.length_cons, fillChildren] using ih

/-- Positional advance over an appended children list advances the marked
child in place. -/
theorem advanceChildren_append (pre : List (List ItemSM)) (m : List ItemSM)
    (post : List (List ItemSM)) :
    advanceChildren (pre ++ m :: post) pre.length =
      (pre ++ (advanceA m).1 :: post, some (advanceA m).2) := by
  induction pre with
  | nil => simp [advanceChildren]
  | cons b r ih =>
    simp only [List.cons_append, List.length_cons, advanceChildren, List.append_eq, ih]

/-- A choices node whose branches from the cursor onwards run as
`F, Fs₀, Fs₁, …` runs as their concatenation: the cursor walks each branch
to exhaustion and then moves to the next, never revisiting. -/
theorem genI_choices (pending : List (List ItemSM)) (Fs : List (List (List Char)))
    (hps : List.Forall₂ GenA pending Fs) :
    ∀ (pre : List (List ItemSM)) (m : List ItemSM) (F : List (List Char)),
    GenA m F →
    GenI (ItemSM.choices (pre ++ m :: pending) pre.length) (F ++ Fs.flatten) := by
  induction hps with
  | nil =>
    intro pre m F hm
    induction hm with
    | last m hfail =>
      have hadv : (advanceI (ItemSM.choices (pre ++ [m]) pre.length)).2 = false := by
        simp [advanceI, advanceChildren_append pre m [], hfail]
      have h := GenI.last (ItemSM.choices (pre ++ [m]) pre.length) hadv
      simpa [fillI, fillChildren_append pre m []] using h
    | step m rest hok hgen ih =>
      have hadv1 : (advanceI (ItemSM.choices (pre ++ [m]) pre.length)).1 =
          ItemSM.choices (pre ++ [(advanceA m).1]) pre.length := by
        simp [advanceI, advanceChildren_append pre m [], hok]
      have hadv2 : (advanceI (ItemSM.choices (pre ++ [m]) pre.length)).2 = true := by
        simp [advanceI, advanceChildren_append pre m [], hok]
      have h := GenI.step (ItemSM.choices (pre ++ [m]) pre.length)
        (rest ++ ([] : List (List (List Char))).flatten) hadv2 (by rw [hadv1]; exact ih)
      simpa [fillI, fillChildren_append pre m []] using h
  | @cons p f pending2 Fs2 hpf hrest ih =>
    intro pre m F hm
    induction hm with
    | last m hfail =>
      have hadv1 : (advanceI (ItemSM.choices (pre ++ m :: p :: pending2) pre.length)).1 =
          ItemSM.choices (pre ++ (advanceA m).1 :: p :: pending2) (pre.length + 1) := by
        simp [advanceI, advanceChildren_append pre m (p :: pending2), hfail]
      have hadv2 : (advanceI (ItemSM.choices (pre ++ m :: p :: pending2) pre.length)).2 = true := by
        simp [advanceI, advanceChildren_append pre m (p :: pending2), hfail]
      have hnext := ih (pre ++ [(advanceA m).1]) p f hpf
      simp only [List.append_assoc, List.singleton_append, List.length_append,
        List.length_cons, List.length_nil, Nat.zero_add] at hnext
      have h := GenI.step (ItemSM.choices (pre ++ m :: p :: pending2) pre.length)
        (f ++ Fs2.flatten) hadv2 (by rw [hadv1]; exact hnext)
      simpa [fillI, fillChildren_append pre m (p :: pending2)] using h
    | step m rest hok hgen ih2 =>
      have hadv1 : (advanceI (ItemSM.choices (pre ++ m :: p :: pending2) pre.length)).1 =
          ItemSM.choices (pre ++ (advanceA m).1 :: p :: pending2) pre.length := by
        simp [advanceI, advanceChildren_append pre m (p :: pending2), hok]
      have hadv2 : (advanceI (ItemSM.choices (pre ++ m :: p :: pending2) pre.length)).2 = true := by
        simp [advanceI, advanceChildren_append pre m (p :: pending2), hok]
      have h := GenI.step (ItemSM.choices (pre ++ m :: p :: pending2) pre.length)
        (rest ++ (f :: Fs2).flatten) hadv2 (by rw [hadv1]; exact ih2)
      simpa [fillI, fillChildren_append pre m (p :: pending2)] using h

/-- The expansion list of each branch, one entry per branch, in order. -/
def expList : List (List AstItem) → List (List (List Char))
| [] => []
| b :: r => ast_expansions b :: expList r

/-- Flattening the per-branch expansion lists gives the branch-list
expansions. -/
theorem expList_flatten (v : List (List AstItem)) :
    (expList v).flatten = branch_expansions v := by
  induction v with
  | nil => simp [expList, branch_expansions]
  | cons b r ih => simp [expList, branch_expansions, ih]

mutual

/-- A freshly built item machine runs through exactly the item's
expansions, provided no empty-branch choices node occurs in it. -/
theorem genI_new (it : AstItem) (h : itemNoEmptyChoices it = true) :
    GenI (newI it) (item_expansions it) := by
  cases it with
  | leaf s =>
    show GenI (ItemSM.leaf s true) [s]
    exact genI_leaf s
  | choices v =>
    match v with
    | [] => simp [itemNoEmptyChoices, List.isEmpty] at h
    | b :: v2 =>
      simp only [itemNoEmptyChoices, List.isEmpty, Bool.and_eq_true, Bool.not_eq_true',
        listNoEmptyChoices] at h
      have hb : astNoEmptyChoices b = true := h.2.1
      have hv2 : listNoEmptyChoices v2 = true := h.2.2
      have hf := genFor_new v2 hv2
      have hg := genI_choices (newList v2) (expList v2) hf [] (newA b)
        (ast_expansions b) (genA_new b hb)
      simp only [List.nil_append, List.length_nil, expList_flatten] at hg
      show GenI (ItemSM.choices (newA b :: newList v2) 0)
        (ast_expansions b ++ branch_expansions v2)
      exact hg

/-- Freshly built machines for a branch list each run through their
branch's expansions. -/
theorem genFor_new (v : List (List AstItem)) (h : listNoEmptyChoices v = true) :
    List.Forall₂ GenA (newList v) (expList v) := by
  match v with
  | [] => exact List.Forall₂.nil
  | b :: r =>
    simp only [listNoEmptyChoices, Bool.and_eq_true] at h
    exact List.Forall₂.cons (genA_new b h.1) (genFor_new r h.2)

/-- A freshly built pattern machine runs through exactly the pattern's
expansions, provided no empty-branch choices node occurs in it. -/
theorem genA_new (l : List AstItem) (h : astNoEmptyChoices l = true) :
    GenA (newA l) (ast_expansions l) := by
  match l with
  | [] => exact genA_nil
  | it :: r =>
    simp only [astNoEmptyChoices, Bool.and_eq_true] at h
    show GenA (newI it :: newA r) (prodExp (item_expansions it) (ast_expansions r))
    exact genA_cons (genI_new it h.1) (genA_new r h.2) (resetA_newA r)

end

/-- The length of an ordered product of expansion lists. -/
theorem prodExp_length (E F : List (List Char)) :
    (prodExp E F).length = E.length * F.length := by
  induction E with
  | nil => simp [prodExp]
  | cons s E ih =>
    simp only [prodExp, List.flatMap_cons, List.length_append, List.length_map,
      List.length_cons] at ih ⊢
    rw [ih, Nat.succ_mul, Nat.add_comm]

mutual

/-- The number of expansions of an item equals the estimator's count. -/
theorem item_expansions_length (it : AstItem) :
    (item_expansions it).length = ast_item_num_expansions it := by
  cases it with
  | leaf s => rfl
  | choices v =>
    show (branch_expansions v).length = numExpansionsList v
    exact branch_expansions_length v

/-- The number of expansions of a branch list equals the estimator's sum. -/
theorem branch_expansions_length (v : List (List AstItem)) :
    (branch_expansions v).length = numExpansionsList v := by
  match v with
  | [] => rfl
  | b :: r =>
    simp only [branch_expansions, numExpansionsList, List.length_append]
    rw [ast_expansions_length b, branch_expansions_length r]

/-- The number of expansions of a pattern equals the estimator's product. -/
theorem ast_expansions_length (l : List AstItem) :
    (ast_expansions l).length = ast_num_expansions l := by
  match l with
  | [] => rfl
  | it :: r =>
    simp only [ast_expansions, ast_num_expansions, prodExp_length]
    rw [item_expansions_length it, ast_expansions_length r]

end

/-- A finished iterator yields nothing more. -/
theorem runNextL_done (fuel : Nat) (it : BraceExpandIterator) (h : it.is_done = true) :
    runNextL fuel it = [] := by
  cases fuel <;> simp [runNextL, nextIter, h]

/-- Running the iterator from an un-finished state whose machine generates
`E` yields exactly `E`, for any fuel of at least `E.length` pulls. -/
theorem runNextL_of_genA {m : List ItemSM} {E : List (List Char)} (h : GenA m E) :
    ∀ (fuel : Nat), E.length ≤ fuel → ∀ (lh nh : Nat),
    runNextL fuel ⟨m, false, lh, nh⟩ = E := by
  induction h with
  | last m hfail =>
    intro fuel hf lh nh
    cases fuel with
    | zero => simp at hf
    | succ f =>
      simp only [runNextL, nextIter]
      simp only [Bool.false_eq_true, if_false]
      rw [runNextL_done f _ (by simp [hfail])]
  | step m rest hok hgen ih =>
    intro fuel hf lh nh
    cases fuel with
    | zero => simp at hf
    | succ f =>
      simp only [runNextL, nextIter]
      simp only [Bool.false_eq_true, if_false]
      rw [show (!(advanceA m).2) = false by simp [hok]]
      rw [ih f (by simpa using hf) lh nh]

/-! ### Concrete patterns used by the scenario claims -/

/-- The AST of `a{b,c}d`. -/
def astScenarioA : Ast :=
  [AstItem.leaf ['a'],
   AstItem.choices [[AstItem.leaf ['b']], [AstItem.leaf ['c']]],
   AstItem.leaf ['d']]

/-- Parsing `a{b,c}d` (escape on) succeeds with the expected AST. -/
theorem parse_scenarioA :
    ast_from_tokens (tokenize ['a', '{', 'b', ',', 'c', '}', 'd'] true) =
      Except.ok astScenarioA := by
  simp [tokenize, tokenizeLoop, termPush, ast_from_tokens, ast_from_tokens_sub,
    choices_loop, astScenarioA]

/-- The AST of the spec's Scenario B pattern. -/
def astScenarioB : Ast :=
  [AstItem.choices [[AstItem.leaf ['a']], [AstItem.leaf ['b']]],
   AstItem.leaf ['c'],
   AstItem.choices
     [[AstItem.leaf ['e']],
      [AstItem.leaf ['f'], AstItem.choices [[AstItem.leaf ['g']], [AstItem.leaf ['h']]]]]]

/-- Parsing the Scenario B pattern (escape on) succeeds with the expected
AST. -/
theorem parse_scenarioB :
    ast_from_tokens
      (tokenize ['{', 'a', ',', 'b', '}', 'c', '{', 'e', ',', 'f', '{', 'g', ',', 'h', '}', '}']
        true) = Except.ok astScenarioB := by
  simp [tokenize, tokenizeLoop, termPush, ast_from_tokens, ast_from_tokens_sub,
    choices_loop, astScenarioB]

/-- The AST of the spec's Scenario C pattern `a{,b,,c,}d`. -/
def astScenarioC : Ast :=
  [AstItem.leaf ['a'],
   AstItem.choices [[], [AstItem.leaf ['b']], [], [AstItem.leaf ['c']], []],
   AstItem.leaf ['d']]

/-- Parsing the Scenario C pattern (escape on) succeeds with the expected
AST. -/
theorem parse_scenarioC :
    ast_from_tokens
      (tokenize ['a', '{', ',', 'b', ',', ',', 'c', ',', '}', 'd'] true) =
      Except.ok astScenarioC := by
  simp [tokenize, tokenizeLoop, termPush, ast_from_tokens, ast_from_tokens_sub,
    choices_loop, astScenarioC]

/-- Parsing a lone open brace succeeds and produces a `Choices` node with an
empty branch list. -/
theorem parse_lone_open_brace :
    ast_from_tokens (tokenize ['{'] true) = Except.ok [AstItem.choices []] := by
  simp [tokenize, tokenizeLoop, ast_from_tokens, ast_from_tokens_sub, choices_loop]

/-! ### Claim C1 -/

/-- Claim C1 as stated is false: on the pattern `{` construction succeeds,
the precomputed count is `0`, yet the iterator performs one successful pull
(yielding the empty string) before reaching `Done`. -/
theorem claim_C1_counterexample :
    ∃ it, brace_expand_iter ['{'] true = Except.ok it ∧
      it.num_expansions_hint = 0 ∧ runNextL 2 it = [[]] ∧
      (runNextL 2 it).length ≠ it.num_expansions_hint := by
  refine ⟨{ state_machine := newA [AstItem.choices []], is_done := false,
            length_hint := ast_max_expansion_length [AstItem.choices []],
            num_expansions_hint := ast_num_expansions [AstItem.choices []] },
    ?_, by decide, by decide, by decide⟩
  simp [brace_expand_iter, parse_lone_open_brace]

/-- Claim C1 (amended): for every pattern and escape flag on which
construction succeeds and whose AST contains no `Choices` node with an empty
branch list (the only exception, reachable solely through a trailing
unmatched `OpenBrace`), the number of successful pulls before the iterator
reaches `Done` equals exactly `ast_num_expansions` of the pattern's AST. -/
theorem claim_C1_amended (p : List Char) (escape : Bool) (ast : Ast)
    (hok : ast_from_tokens (tokenize p escape) = Except.ok ast)
    (hwf : astNoEmptyChoices ast = true)
    (fuel : Nat) (hfuel : ast_num_expansions ast ≤ fuel) :
    ∃ it, brace_expand_iter p escape = Except.ok it ∧
      it.num_expansions_hint = ast_num_expansions ast ∧
      (runNextL fuel it).length = ast_num_expansions ast := by
  refine ⟨{ state_machine := newA ast, is_done := false,
            length_hint := ast_max_expansion_length ast,
            num_expansions_hint := ast_num_expansions ast }, ?_, rfl, ?_⟩
  · simp [brace_expand_iter, hok]
  · rw [runNextL_of_genA (genA_new ast hwf) fuel
      (by rw [ast_expansions_length]; exact hfuel)]
    exact ast_expansions_length ast

/-- Witness for the amended Claim C1 at the concrete pattern `a{b,c}d`. -/
theorem claim_C1_amended_witness :
    ∃ it, brace_expand_iter ['a', '{', 'b', ',', 'c', '}', 'd'] true = Except.ok it ∧
      it.num_expansions_hint = ast_num_expansions astScenarioA ∧
      (runNextL 2 it).length = ast_num_expansions astScenarioA :=
  claim_C1_amended ['a', '{', 'b', ',', 'c', '}', 'd'] true astScenarioA
    parse_scenarioA (by decide) 2 (by decide)

/-! ### Claims C6 and C7 (concrete scenarios) -/

/-- Claim C6: Scenario B enumerates exactly the six expected strings in
order, with count 6 and max length 4 (seven pulls are attempted so that the
seventh, failing pull exhibits exhaustion after the sixth). -/
theorem claim_C6 :
    ∃ it,
      brace_expand_iter
        ['{', 'a', ',', 'b', '}', 'c', '{', 'e', ',', 'f', '{', 'g', ',', 'h', '}', '}']
        true = Except.ok it ∧
      runNextL 7 it =
        [['a', 'c', 'e'], ['a', 'c', 'f', 'g'], ['a', 'c', 'f', 'h'],
         ['b', 'c', 'e'], ['b', 'c', 'f', 'g'], ['b', 'c', 'f', 'h']] ∧
      it.num_expansions_hint = 6 ∧ it.length_hint = 4 := by
  refine ⟨{ state_machine := newA astScenarioB, is_done := false,
            length_hint := ast_max_expansion_length astScenarioB,
            num_expansions_hint := ast_num_expansions astScenarioB },
    ?_, by decide, by decide, by decide⟩
  simp [brace_expand_iter, parse_scenarioB, astScenarioB]

/-- Claim C7: Scenario C enumerates exactly `ad, abd, ad, acd, ad` in order
(each empty branch yielding a duplicate `ad`), with count 5 (six pulls are
attempted so that the sixth, failing pull exhibits exhaustion after the
fifth). -/
theorem claim_C7 :
    ∃ it,
      brace_expand_iter ['a', '{', ',', 'b', ',', ',', 'c', ',', '}', 'd'] true =
        Except.ok it ∧
      runNextL 6 it =
        [['a', 'd'], ['a', 'b', 'd'], ['a', 'd'], ['a', 'c', 'd'], ['a', 'd']] ∧
      it.num_expansions_hint = 5 := by
  refine ⟨{ state_machine := newA astScenarioC, is_done := false,
            length_hint := ast_max_expansion_length astScenarioC,
            num_expansions_hint := ast_num_expansions astScenarioC },
    ?_, by decide, by decide⟩
  simp [brace_expand_iter, parse_scenarioC, astScenarioC]

/-! ### Claim C8 (next and next_into agree) -/

/-- Claim C8: for every iterator state, any number of pulls and any initial
buffer contents, the allocating path (`Iterator::next`) and the
zero-allocation path (`next_into`) produce exactly the same sequence of
strings and stop after the same number of pulls. -/
theorem claim_C8 (fuel : Nat) (it : BraceExpandIterator) (buf : List Char) :
    runNextIntoL fuel it buf = runNextL fuel it := by
  induction fuel generalizing it buf with
  | zero => rfl
  | succ f ih =>
    by_cases h : it.is_done = true
    · simp [runNextIntoL, runNextL, next_into, nextIter, h]
    · have h2 : it.is_done = false := by revert h; cases it.is_done <;> simp
      simp [runNextIntoL, runNextL, next_into, nextIter, h2, ih]

/-! ### Maximum rendered length -/

mutual

/-- The longest string an item machine of this shape can ever render
(depends only on the stored literals, not on validity flags or cursors). -/
def maxLenI : ItemSM → Nat
| ItemSM.leaf s _ => s.length
| ItemSM.choices cs _ => maxLenChildren cs

/-- The longest rendering over a children list. -/
def maxLenChildren : List (List ItemSM) → Nat
| [] => 0
| b :: r => max (maxLenA b) (maxLenChildren r)

/-- The longest string a pattern machine of this shape can ever render. -/
def maxLenA : List ItemSM → Nat
| [] => 0
| c :: r => maxLenI c + maxLenA r

end

mutual

/-- What an item machine renders is never longer than its shape bound. -/
theorem fillI_len (c : ItemSM) : (fillI c []).length ≤ maxLenI c := by
  cases c with
  | leaf s valid => cases valid <;> simp [fillI, maxLenI]
  | choices cs idx =>
    show (fillChildren cs idx []).length ≤ maxLenChildren cs
    exact fillChildren_len cs idx

/-- Positional children rendering is never longer than the children
bound. -/
theorem fillChildren_len (cs : List (List ItemSM)) (n : Nat) :
    (fillChildren cs n []).length ≤ maxLenChildren cs := by
  match cs, n with
  | [], _ => simp [fillChildren, maxLenChildren]
  | b :: r, 0 =>
    exact Nat.le_trans (fillA_len b) (Nat.le_max_left _ _)
  | b :: r, n + 1 =>
    exact Nat.le_trans (fillChildren_len r n) (Nat.le_max_right _ _)

/-- What a pattern machine renders is never longer than its shape bound. -/
theorem fillA_len (m : List ItemSM) : (fillA m []).length ≤ maxLenA m := by
  match m with
  | [] => simp [fillA, maxLenA]
  | c :: r =>
    rw [fillA_cons]
    simp only [List.length_append, maxLenA]
    exact Nat.add_le_add (fillI_len c) (fillA_len r)

end

mutual

/-- Resetting does not change the shape bound (item version). -/
theorem maxLenI_resetI (c : ItemSM) : maxLenI (resetI c) = maxLenI c := by
  cases c with
  | leaf s valid => rfl
  | choices cs idx =>
    show maxLenChildren (resetList cs) = maxLenChildren cs
    exact maxLenChildren_resetList cs

/-- Resetting does not change the shape bound (children version). -/
theorem maxLenChildren_resetList (cs : List (List ItemSM)) :
    maxLenChildren (resetList cs) = maxLenChildren cs := by
  match cs with
  | [] => rfl
  | b :: r =>
    simp only [resetList, maxLenChildren]
    rw [maxLenA_resetA b, maxLenChildren_resetList r]

/-- Resetting does not change the shape bound (pattern version). -/
theorem maxLenA_resetA (m : List ItemSM) : maxLenA (resetA m) = maxLenA m := by
  match m with
  | [] => rfl
  | c :: r =>
    simp only [resetA, maxLenA]
    rw [maxLenI_resetI c, maxLenA_resetA r]

end

mutual

/-- Advancing does not change the shape bound (item version). -/
theorem maxLenI_advanceI (c : ItemSM) : maxLenI (advanceI c).1 = maxLenI c := by
  cases c with
  | leaf s valid => rfl
  | choices cs idx =>
    have hch := maxLenChildren_advanceChildren cs idx
    simp only [advanceI]
    cases h : advanceChildren cs idx with
    | mk cs2 ob =>
      rw [h] at hch
      cases ob with
      | none => rfl
      | some b => cases b <;> simp only [maxLenI] <;> exact hch

/-- Advancing does not change the shape bound (children version). -/
theorem maxLenChildren_advanceChildren (cs : List (List ItemSM)) (n : Nat) :
    maxLenChildren (advanceChildren cs n).1 = maxLenChildren cs := by
  match cs, n with
  | [], _ => rfl
  | b :: r, 0 =>
    simp only [advanceChildren, maxLenChildren]
    rw [maxLenA_advanceA b]
  | b :: r, n + 1 =>
    simp only [advanceChildren, maxLenChildren]
    rw [maxLenChildren_advanceChildren r n]

/-- Advancing does not change the shape bound (pattern version). -/
theorem maxLenA_advanceA (m : List ItemSM) : maxLenA (advanceA m).1 = maxLenA m := by
  match m with
  | [] => rfl
  | c :: rest =>
    simp only [advanceA]
    by_cases h : (advanceA rest).2
    · simp only [h, if_true, maxLenA]
      rw [maxLenA_advanceA rest]
    · simp only [h, if_false, Bool.false_eq_true]
      by_cases h2 : (advanceI c).2
      · simp only [h2, if_true, maxLenA]
        rw [maxLenI_advanceI c, maxLenA_advanceA rest]
      · simp only [h2, if_false, Bool.false_eq_true, maxLenA]
        rw [maxLenI_resetI, maxLenI_advanceI c, maxLenA_advanceA rest]

end

mutual

/-- A fresh item machine's shape bound is the estimator's max length. -/
theorem maxLenI_newI (it : AstItem) :
    maxLenI (newI it) = ast_item_max_expansion_length it := by
  cases it with
  | leaf s => rfl
  | choices v =>
    show maxLenChildren (newList v) = maxExpansionLengthList v
    exact maxLenChildren_newList v

/-- Fresh children machines' shape bound is the estimator's branch max. -/
theorem maxLenChildren_newList (v : List (List AstItem)) :
    maxLenChildren (newList v) = maxExpansionLengthList v := by
  match v with
  | [] => rfl
  | b :: r =>
    simp only [newList, maxLenChildren, maxExpansionLengthList]
    rw [maxLenA_newA b, maxLenChildren_newList r]

/-- A fresh pattern machine's shape bound is the estimator's max length. -/
theorem maxLenA_newA (l : List AstItem) :
    maxLenA (newA l) = ast_max_expansion_length l := by
  match l with
  | [] => rfl
  | it :: r =>
    simp only [newA, maxLenA, ast_max_expansion_length]
    rw [maxLenI_newI it, maxLenA_newA r]

end

/-- Every string an iterator run yields is bounded by the machine's shape
bound. -/
theorem runNextL_maxlen (fuel : Nat) (it : BraceExpandIterator) (s : List Char)
    (hs : s ∈ runNextL fuel it) : s.length ≤ maxLenA it.state_machine := by
  induction fuel generalizing it with
  | zero => simp [runNextL] at hs
  | succ f ih =>
    by_cases h : it.is_done = true
    · simp [runNextL, nextIter, h] at hs
    · have h2 : it.is_done = false := by revert h; cases it.is_done <;> simp
      simp only [runNextL, nextIter, h2, Bool.false_eq_true, if_false,
        List.mem_cons] at hs
      cases hs with
      | inl hs => rw [hs]; exact fillA_len it.state_machine
      | inr hs =>
        have := ih _ hs
        simpa [maxLenA_advanceA] using this

/-- Claim C3: for every pattern and escape flag on which construction
succeeds, every string yielded by the iterator has length at most
`ast_max_expansion_length` of the pattern's AST, which is also the
iterator's precomputed `max_length` hint. -/
theorem claim_C3 (p : List Char) (escape : Bool) (ast : Ast)
    (hast : ast_from_tokens (tokenize p escape) = Except.ok ast)
    (it : BraceExpandIterator)
    (hok : brace_expand_iter p escape = Except.ok it)
    (fuel : Nat) (s : List Char) (hs : s ∈ runNextL fuel it) :
    s.length ≤ ast_max_expansion_length ast ∧
      it.length_hint = ast_max_expansion_length ast := by
  unfold brace_expand_iter at hok
  rw [hast] at hok
  have hit : it = BraceExpandIterator.mk (newA ast) false
      (ast_max_expansion_length ast) (ast_num_expansions ast) := by
    cases hok; rfl
  subst hit
  refine ⟨?_, rfl⟩
  have := runNextL_maxlen fuel _ s hs
  simpa [maxLenA_newA] using this

/-- The iterator built for the pattern `a{b,c}d`. -/
def iterScenarioA : BraceExpandIterator :=
  { state_machine := newA astScenarioA
    is_done := false
    length_hint := ast_max_expansion_length astScenarioA
    num_expansions_hint := ast_num_expansions astScenarioA }

/-- Construction on `a{b,c}d` yields `iterScenarioA`. -/
theorem brace_expand_iter_scenarioA :
    brace_expand_iter ['a', '{', 'b', ',', 'c', '}', 'd'] true =
      Except.ok iterScenarioA := by
  simp [brace_expand_iter, parse_scenarioA, iterScenarioA]

/-- Witness for Claim C3 at the pattern `a{b,c}d` and its first yielded
string `abd`. -/
theorem claim_C3_witness :
    (['a', 'b', 'd'] : List Char).length ≤ ast_max_expansion_length astScenarioA ∧
      iterScenarioA.length_hint = ast_max_expansion_length astScenarioA :=
  claim_C3 ['a', '{', 'b', ',', 'c', '}', 'd'] true astScenarioA parse_scenarioA
    iterScenarioA brace_expand_iter_scenarioA 2 ['a', 'b', 'd'] (by decide)

/-! ### The pristine-tail invariant (untouched branches) -/

mutual

/-- The item state is pristine: identical to a freshly constructed (or
reset) state of its shape. -/
def pristineI : ItemSM → Bool
| ItemSM.leaf _ valid => valid
| ItemSM.choices cs idx => idx == 0 && pristineChildren cs

/-- All children states are pristine. -/
def pristineChildren : List (List ItemSM) → Bool
| [] => true
| b :: r => pristineA b && pristineChildren r

/-- The pattern state is pristine. -/
def pristineA : List ItemSM → Bool
| [] => true
| c :: r => pristineI c && pristineA r

end

mutual

/-- Pristine states are exactly the fixed points of `reset` (item). -/
theorem pristineI_iff (c : ItemSM) : pristineI c = true ↔ resetI c = c := by
  cases c with
  | leaf s valid =>
    cases valid <;> simp [pristineI, resetI]
  | choices cs idx =>
    simp only [pristineI, resetI, Bool.and_eq_true, beq_iff_eq]
    rw [pristineChildren_iff]
    constructor
    · intro h; rw [h.2, h.1]
    · intro h
      have h1 := congrArg (fun x => match x with
        | ItemSM.choices cs2 _ => cs2
        | _ => cs) h
      have h2 := congrArg (fun x => match x with
        | ItemSM.choices _ i => i
        | _ => idx) h
      simp at h1 h2
      exact ⟨h2.symm, h1⟩

/-- Pristine states are exactly the fixed points of `reset` (children). -/
theorem pristineChildren_iff (cs : List (List ItemSM)) :
    pristineChildren cs = true ↔ resetList cs = cs := by
  match cs with
  | [] => simp [pristineChildren, resetList]
  | b :: r =>
    simp only [pristineChildren, resetList, Bool.and_eq_true, List.cons.injEq]
    rw [pristineA_iff, pristineChildren_iff]

/-- Pristine states are exactly the fixed points of `reset` (pattern). -/
theorem pristineA_iff (m : List ItemSM) : pristineA m = true ↔ resetA m = m := by
  match m with
  | [] => simp [pristineA, resetA]
  | c :: r =>
    simp only [pristineA, resetA, Bool.and_eq_true, List.cons.injEq]
    rw [pristineI_iff, pristineA_iff]

end

/-- A freshly constructed pattern machine is pristine. -/
theorem pristineA_newA (l : List AstItem) : pristineA (newA l) = true :=
  (pristineA_iff (newA l)).mpr (resetA_newA l)

/-- A reset pattern machine is pristine. -/
theorem pristineA_resetA (m : List ItemSM) : pristineA (resetA m) = true :=
  (pristineA_iff (resetA m)).mpr (resetA_idem m)

mutual

/-- The enumerator invariant (item), imposed on every choices node of the
subtree without exception: all of the node's branches — already passed,
active, or pending — recursively satisfy the invariant, and every branch at
an index strictly greater than the cursor is pristine. -/
def invI : ItemSM → Bool
| ItemSM.leaf _ _ => true
| ItemSM.choices cs idx => invChildren cs && tailPristine cs idx

/-- Every branch of the children list recursively satisfies the
invariant. -/
def invChildren : List (List ItemSM) → Bool
| [] => true
| b :: r => invA b && invChildren r

/-- Every branch at an index strictly greater than the cursor is
pristine. -/
def tailPristine : List (List ItemSM) → Nat → Bool
| [], _ => true
| _ :: r, 0 => pristineChildren r
| _ :: r, n + 1 => tailPristine r n

/-- The enumerator invariant (pattern): every item satisfies it. -/
def invA : List ItemSM → Bool
| [] => true
| c :: r => invI c && invA r

end

/-- A fully pristine children list satisfies the zero-cursor pristine-tail
condition. -/
theorem pristineChildren_tailPristine (cs : List (List ItemSM))
    (h : pristineChildren cs = true) : tailPristine cs 0 = true := by
  match cs with
  | [] => rfl
  | b :: r =>
    simp only [pristineChildren, Bool.and_eq_true] at h
    exact h.2

mutual

/-- Pristine states satisfy the invariant (item). -/
theorem pristineI_invI (c : ItemSM) (h : pristineI c = true) : invI c = true := by
  cases c with
  | leaf s valid => rfl
  | choices cs idx =>
    simp only [pristineI, Bool.and_eq_true, beq_iff_eq] at h
    simp only [invI, Bool.and_eq_true]
    refine ⟨pristineChildren_invChildren cs h.2, ?_⟩
    rw [h.1]
    exact pristineChildren_tailPristine cs h.2

/-- Pristine branches each satisfy the invariant (children version). -/
theorem pristineChildren_invChildren (cs : List (List ItemSM))
    (h : pristineChildren cs = true) : invChildren cs = true := by
  match cs with
  | [] => rfl
  | b :: r =>
    simp only [pristineChildren, Bool.and_eq_true] at h
    simp only [invChildren, Bool.and_eq_true]
    exact ⟨pristineA_invA b h.1, pristineChildren_invChildren r h.2⟩

/-- Pristine states satisfy the invariant (pattern). -/
theorem pristineA_invA (m : List ItemSM) (h : pristineA m = true) : invA m = true := by
  match m with
  | [] => rfl
  | c :: r =>
    simp only [pristineA, Bool.and_eq_true] at h
    simp only [invA, Bool.and_eq_true]
    exact ⟨pristineI_invI c h.1, pristineA_invA r h.2⟩

end

/-- Advancing the child under the cursor keeps all later branches pristine,
both for an unmoved cursor and for the cursor moved one step right (the
newly passed branch simply stops being constrained). -/
theorem tailPristine_advanceChildren (cs : List (List ItemSM)) (idx : Nat)
    (h : tailPristine cs idx = true) :
    tailPristine (advanceChildren cs idx).1 idx = true ∧
      tailPristine (advanceChildren cs idx).1 (idx + 1) = true := by
  match cs, idx with
  | [], _ => exact ⟨rfl, rfl⟩
  | b :: r, 0 =>
    simp only [advanceChildren, tailPristine] at h ⊢
    exact ⟨h, pristineChildren_tailPristine r h⟩
  | b :: r, n + 1 =>
    simp only [tailPristine] at h
    have ih := tailPristine_advanceChildren r n h
    simp only [advanceChildren, tailPristine]
    exact ih

mutual

/-- Advancing preserves the invariant (item). -/
theorem invI_advanceI (c : ItemSM) (h : invI c = true) : invI (advanceI c).1 = true := by
  cases c with
  | leaf s valid => rfl
  | choices cs idx =>
    simp only [invI, Bool.and_eq_true] at h
    have hch := invChildren_advanceChildren cs idx h.1
    have htp := tailPristine_advanceChildren cs idx h.2
    simp only [advanceI]
    cases hac : advanceChildren cs idx with
    | mk cs2 ob =>
      rw [hac] at hch htp
      cases ob with
      | none =>
        simp only [invI, Bool.and_eq_true]
        exact h
      | some b =>
        cases b with
        | false =>
          simp only [invI, Bool.and_eq_true]
          exact ⟨hch, htp.2⟩
        | true =>
          simp only [invI, Bool.and_eq_true]
          exact ⟨hch, htp.1⟩

/-- Advancing one child preserves the invariant of every branch (children
version): the advanced branch by the pattern preservation, the others
untouched. -/
theorem invChildren_advanceChildren (cs : List (List ItemSM)) (idx : Nat)
    (h : invChildren cs = true) :
    invChildren (advanceChildren cs idx).1 = true := by
  match cs, idx with
  | [], _ => rfl
  | b :: r, 0 =>
    simp only [invChildren, Bool.and_eq_true] at h
    simp only [advanceChildren, invChildren, Bool.and_eq_true]
    exact ⟨invA_advanceA b h.1, h.2⟩
  | b :: r, n + 1 =>
    simp only [invChildren, Bool.and_eq_true] at h
    simp only [advanceChildren, invChildren, Bool.and_eq_true]
    exact ⟨h.1, invChildren_advanceChildren r n h.2⟩

/-- Advancing preserves the invariant (pattern). -/
theorem invA_advanceA (m : List ItemSM) (h : invA m = true) : invA (advanceA m).1 = true := by
  match m with
  | [] => rfl
  | c :: rest =>
    simp only [invA, Bool.and_eq_true] at h
    simp only [advanceA]
    by_cases h1 : (advanceA rest).2
    · simp only [h1, if_true, invA, Bool.and_eq_true]
      exact ⟨h.1, invA_advanceA rest h.2⟩
    · simp only [h1, if_false, Bool.false_eq_true]
      by_cases h2 : (advanceI c).2
      · simp only [h2, if_true, invA, Bool.and_eq_true]
        exact ⟨invI_advanceI c h.1, invA_advanceA rest h.2⟩
      · simp only [h2, if_false, Bool.false_eq_true, invA, Bool.and_eq_true]
        refine ⟨?_, invA_advanceA rest h.2⟩
        exact pristineI_invI _ ((pristineI_iff _).mpr (resetI_idem _))

end

/-- Iterated root `advance` calls, following the returned state. -/
def advanceNTimes : Nat → List ItemSM → List ItemSM
| 0, m => m
| n + 1, m => advanceNTimes n (advanceA m).1

/-- Claim C5: from the freshly constructed state tree, or from any reset
state tree, every state reached by any number of root `advance` calls
satisfies the invariant `invA`, which imposes on every choices node of the
whole tree — including those inside branches the cursor has already passed —
that all branches at indices strictly greater than its cursor are pristine
(`tailPristine`, recursively required everywhere through `invChildren`);
moreover "pristine" coincides with "identical to the state produced by
construction or reset" in the sense of being a fixed point of `reset`. -/
theorem claim_C5 :
    (∀ (ast : Ast) (n : Nat), invA (advanceNTimes n (newA ast)) = true) ∧
    (∀ (m : List ItemSM) (n : Nat), invA (advanceNTimes n (resetA m)) = true) ∧
    (∀ (m : List ItemSM), pristineA m = true ↔ resetA m = m) := by
  have hstep : ∀ (n : Nat) (m : List ItemSM), invA m = true →
      invA (advanceNTimes n m) = true := by
    intro n
    induction n with
    | zero => intro m h; exact h
    | succ k ih => intro m h; exact ih _ (invA_advanceA m h)
  refine ⟨?_, ?_, pristineA_iff⟩
  · intro ast n
    exact hstep n _ (pristineA_invA _ (pristineA_newA ast))
  · intro m n
    exact hstep n _ (pristineA_invA _ (pristineA_resetA m))

/-! ### Tokenizer invariants -/

/-- Whether a token is a literal (`Term`) token. -/
def isTermTok : Token → Bool
| Token.Term _ => true
| _ => false

/-- No two adjacent literal tokens: of any two neighbours at least one is
structural. -/
abbrev NoAdjTerms (ts : List Token) : Prop :=
  List.Chain' (fun a b => isTermTok a = false ∨ isTermTok b = false) ts

/-- `termPush` preserves the reversed-accumulator adjacency invariant. -/
theorem termPush_noAdj (acc : List Token) (c : Char) (h : NoAdjTerms acc) :
    NoAdjTerms (termPush acc c) := by
  match acc with
  | [] => simp [termPush, NoAdjTerms]
  | Token.Term s :: rest =>
    replace h : List.Chain' (fun a b => isTermTok a = false ∨ isTermTok b = false)
      (Token.Term s :: rest) := h
    show List.Chain' (fun a b => isTermTok a = false ∨ isTermTok b = false)
      (Token.Term (s ++ [c]) :: rest)
    rw [List.chain'_cons'] at h ⊢
    refine ⟨?_, h.2⟩
    intro b hb
    cases h.1 b hb with
    | inl hl => simp [isTermTok] at hl
    | inr hr => exact Or.inr hr
  | Token.OpenBrace :: rest =>
    show List.Chain' (fun a b => isTermTok a = false ∨ isTermTok b = false)
      (Token.Term [c] :: Token.OpenBrace :: rest)
    rw [List.chain'_cons']
    exact ⟨fun b hb => by simp at hb; rw [← hb]; exact Or.inr rfl, h⟩
  | Token.CloseBrace :: rest =>
    show List.Chain' (fun a b => isTermTok a = false ∨ isTermTok b = false)
      (Token.Term [c] :: Token.CloseBrace :: rest)
    rw [List.chain'_cons']
    exact ⟨fun b hb => by simp at hb; rw [← hb]; exact Or.inr rfl, h⟩
  | Token.Comma :: rest =>
    show List.Chain' (fun a b => isTermTok a = false ∨ isTermTok b = false)
      (Token.Term [c] :: Token.Comma :: rest)
    rw [List.chain'_cons']
    exact ⟨fun b hb => by simp at hb; rw [← hb]; exact Or.inr rfl, h⟩

/-- Consing a structural token preserves the adjacency invariant. -/
theorem structural_noAdj (tok : Token) (acc : List Token)
    (htok : isTermTok tok = false) (h : NoAdjTerms acc) :
    NoAdjTerms (tok :: acc) := by
  show List.Chain' (fun a b => isTermTok a = false ∨ isTermTok b = false) (tok :: acc)
  rw [List.chain'_cons']
  exact ⟨fun b hb => Or.inl htok, h⟩

/-- The tokenizer loop keeps the adjacency invariant from the accumulator
through to the final (reversed) output. -/
theorem tokenizeLoop_noAdj (cs : List Char) :
    ∀ (escape esc_seq : Bool) (acc : List Token), NoAdjTerms acc →
    NoAdjTerms (tokenizeLoop cs escape esc_seq acc) := by
  induction cs with
  | nil =>
    intro escape esc_seq acc h
    simp only [tokenizeLoop]
    rw [NoAdjTerms, List.chain'_reverse]
    exact h.imp (fun a b hab => Or.symm hab)
  | cons c cs ih =>
    intro escape esc_seq acc h
    simp only [tokenizeLoop]
    by_cases h0 : esc_seq
    · simp only [h0, if_true]
      exact ih escape false _ (termPush_noAdj acc c h)
    · simp only [h0, if_false, Bool.false_eq_true]
      by_cases h1 : c = '{'
      · simp only [h1, if_true, if_pos]
        exact ih escape false _ (structural_noAdj _ _ rfl h)
      · simp only [h1, if_false]
        by_cases h2 : c = '}'
        · simp only [h2, if_true, if_pos]
          exact ih escape false _ (structural_noAdj _ _ rfl h)
        · simp only [h2, if_false]
          by_cases h3 : c = ','
          · simp only [h3, if_true, if_pos]
            exact ih escape false _ (structural_noAdj _ _ rfl h)
          · simp only [h3, if_false]
            by_cases h4 : escape && c = '\\'
            · simp only [h4, if_true, if_pos]
              exact ih escape true _ h
            · simp only [h4, if_false]
              exact ih escape false _ (termPush_noAdj acc c h)

/-- Claim C9: for every input string and both escape-flag values, the token
sequence produced by `tokenize` never contains two adjacent `Term` tokens. -/
theorem claim_C9 (p : List Char) (escape : Bool) :
    NoAdjTerms (tokenize p escape) :=
  tokenizeLoop_noAdj p escape false [] (by simp [NoAdjTerms])

/-- The text a token stands for: structural tokens render to their
character, a `Term` to its contents. -/
def renderToken : Token → List Char
| Token.OpenBrace => ['{']
| Token.CloseBrace => ['}']
| Token.Comma => [',']
| Token.Term s => s

/-- Concatenate the rendered tokens in order. -/
def renderTokens (ts : List Token) : List Char :=
  (ts.map renderToken).flatten

/-- Rendering distributes over list append. -/
theorem renderTokens_append (l1 l2 : List Token) :
    renderTokens (l1 ++ l2) = renderTokens l1 ++ renderTokens l2 := by
  simp [renderTokens]

/-- Rendering after a `termPush` appends exactly the pushed character. -/
theorem termPush_render (acc : List Token) (c : Char) :
    renderTokens (termPush acc c).reverse = renderTokens acc.reverse ++ [c] := by
  match acc with
  | [] => simp [termPush, renderTokens, renderToken]
  | Token.Term s :: rest =>
    simp [termPush, renderTokens_append, renderTokens, renderToken]
  | Token.OpenBrace :: rest =>
    simp [termPush, renderTokens_append, renderTokens, renderToken]
  | Token.CloseBrace :: rest =>
    simp [termPush, renderTokens_append, renderTokens, renderToken]
  | Token.Comma :: rest =>
    simp [termPush, renderTokens_append, renderTokens, renderToken]

/-- With escaping disabled the tokenizer loop is lossless: rendering its
output yields the rendered accumulator followed by the remaining input. -/
theorem tokenizeLoop_render (cs : List Char) :
    ∀ (acc : List Token),
    renderTokens (tokenizeLoop cs false false acc) = renderTokens acc.reverse ++ cs := by
  induction cs with
  | nil => intro acc; simp [tokenizeLoop]
  | cons c cs ih =>
    intro acc
    simp only [tokenizeLoop, Bool.false_and, if_false, Bool.false_eq_true]
    by_cases h1 : c = '{'
    · simp only [h1, if_true, if_pos, ih, renderTokens_append]
      simp [renderTokens, renderToken]
    · simp only [h1, if_false]
      by_cases h2 : c = '}'
      · simp only [h2, if_true, if_pos, ih, renderTokens_append]
        simp [renderTokens, renderToken]
      · simp only [h2, if_false]
        by_cases h3 : c = ','
        · simp only [h3, if_true, if_pos, ih, renderTokens_append]
          simp [renderTokens, renderToken]
        · simp only [h3, if_false, ih, termPush_render]
          simp

/-- Claim C10: tokenizing with escaping disabled is lossless: concatenating
the rendered tokens (`{`, `}`, `,`, and each `Term`'s text) reconstructs the
input exactly. -/
theorem claim_C10 (p : List Char) : renderTokens (tokenize p false) = p := by
  have h := tokenizeLoop_render p []
  simpa [tokenize, renderTokens] using h

/-! ### Claim C2: empty-branch choices nodes -/

/-- Dropping tokens preserves "does not end in an open brace". -/
theorem lastOk_drop (ts : List Token) (n : Nat)
    (h : ts.getLast? ≠ some Token.OpenBrace) :
    (ts.drop n).getLast? ≠ some Token.OpenBrace := by
  induction n generalizing ts with
  | zero => exact h
  | succ k ih =>
    match ts with
    | [] => simp
    | t :: ts2 =>
      simp only [List.drop_succ_cons]
      refine ih ts2 ?_
      match ts2 with
      | [] => simp
      | u :: ts3 => simpa [List.getLast?_cons_cons] using h

/-- The tail of a token list that does not end in an open brace also does
not end in one. -/
theorem lastOk_tail (t : Token) (ts : List Token)
    (h : (t :: ts).getLast? ≠ some Token.OpenBrace) :
    ts.getLast? ≠ some Token.OpenBrace := by
  match ts with
  | [] => simp
  | u :: ts2 => simpa [List.getLast?_cons_cons] using h

/-- Unless the token stream ends in an `OpenBrace`, the pattern parser
produces no empty-branch choices node, and on a nonempty stream the branch
loop produces at least one branch, all free of empty-branch choices
nodes. -/
theorem parse_noEmpty_strong (N : Nat) :
    (∀ ts : List Token, ts.length ≤ N → ts.getLast? ≠ some Token.OpenBrace →
      astNoEmptyChoices (ast_from_tokens_sub ts).1 = true) ∧
    (∀ ts : List Token, ts.length ≤ N → ts ≠ [] →
      ts.getLast? ≠ some Token.OpenBrace →
      (choices_loop ts).1 ≠ [] ∧ listNoEmptyChoices (choices_loop ts).1 = true) := by
  induction N with
  | zero =>
    constructor
    · intro ts hlen hlast
      match ts, hlen with
      | [], _ => simp [ast_from_tokens_sub, astNoEmptyChoices]
    · intro ts hlen hne hlast
      match ts, hlen with
      | [], _ => exact absurd rfl hne
  | succ N ih =>
    have hA : ∀ ts : List Token, ts.length ≤ N + 1 →
        ts.getLast? ≠ some Token.OpenBrace →
        astNoEmptyChoices (ast_from_tokens_sub ts).1 = true := by
      intro ts hlen hlast
      match ts with
      | [] => simp [ast_from_tokens_sub, astNoEmptyChoices]
      | Token.CloseBrace :: r => simp [ast_from_tokens_sub, astNoEmptyChoices]
      | Token.Comma :: r => simp [ast_from_tokens_sub, astNoEmptyChoices]
      | Token.Term s :: r =>
        have hrlen : r.length ≤ N := by simp only [List.length_cons] at hlen; omega
        have hr := ih.1 r hrlen (lastOk_tail _ r hlast)
        simp only [ast_from_tokens_sub, astNoEmptyChoices, itemNoEmptyChoices,
          Bool.true_and]
        exact hr
      | Token.OpenBrace :: r =>
        have hrne : r ≠ [] := by
          intro h0
          subst h0
          simp at hlast
        have hrlen : r.length ≤ N := by simp only [List.length_cons] at hlen; omega
        have hrlast := lastOk_tail _ r hlast
        have hcho := ih.2 r hrlen hrne hrlast
        have hrestlen : (r.drop ((choices_loop r).2 + 1)).length ≤ N := by
          have hd : (r.drop ((choices_loop r).2 + 1)).length ≤ r.length := by
            rw [List.length_drop]; exact Nat.sub_le _ _
          omega
        have hrest := ih.1 (r.drop ((choices_loop r).2 + 1)) hrestlen
          (lastOk_drop r _ hrlast)
        simp only [ast_from_tokens_sub, astNoEmptyChoices, itemNoEmptyChoices,
          Bool.and_eq_true, Bool.not_eq_true']
        exact ⟨⟨List.isEmpty_eq_false.mpr hcho.1, hcho.2⟩, hrest⟩
    have hB : ∀ ts : List Token, ts.length ≤ N + 1 → ts ≠ [] →
        ts.getLast? ≠ some Token.OpenBrace →
        (choices_loop ts).1 ≠ [] ∧ listNoEmptyChoices (choices_loop ts).1 = true := by
      intro ts hlen hne hlast
      match ts with
      | t :: ts2 =>
        have hAhead := hA (t :: ts2) hlen hlast
        rcases hd : (t :: ts2).drop (ast_from_tokens_sub (t :: ts2)).2 with _ | ⟨tok, rest2⟩
        · have heq : choices_loop (t :: ts2) =
              ([(ast_from_tokens_sub (t :: ts2)).1], (ast_from_tokens_sub (t :: ts2)).2) := by
            simp only [choices_loop]
            rw [hd]
          rw [heq]
          exact ⟨by simp, by simpa [listNoEmptyChoices] using hAhead⟩
        · cases tok with
          | CloseBrace =>
            have heq : choices_loop (t :: ts2) =
                ([(ast_from_tokens_sub (t :: ts2)).1], (ast_from_tokens_sub (t :: ts2)).2) := by
              simp only [choices_loop]
              rw [hd]
            rw [heq]
            exact ⟨by simp, by simpa [listNoEmptyChoices] using hAhead⟩
          | Term s =>
            have heq : choices_loop (t :: ts2) =
                ([(ast_from_tokens_sub (t :: ts2)).1], (ast_from_tokens_sub (t :: ts2)).2) := by
              simp only [choices_loop]
              rw [hd]
            rw [heq]
            exact ⟨by simp, by simpa [listNoEmptyChoices] using hAhead⟩
          | OpenBrace =>
            have heq : choices_loop (t :: ts2) =
                ([(ast_from_tokens_sub (t :: ts2)).1], (ast_from_tokens_sub (t :: ts2)).2) := by
              simp only [choices_loop]
              rw [hd]
            rw [heq]
            exact ⟨by simp, by simpa [listNoEmptyChoices] using hAhead⟩
          | Comma =>
            have heq : choices_loop (t :: ts2) =
                ((ast_from_tokens_sub (t :: ts2)).1 ::
                    (choices_loop ((t :: ts2).drop ((ast_from_tokens_sub (t :: ts2)).2 + 1))).1,
                  (ast_from_tokens_sub (t :: ts2)).2 + 1 +
                    (choices_loop ((t :: ts2).drop ((ast_from_tokens_sub (t :: ts2)).2 + 1))).2) := by
              simp only [choices_loop]
              rw [hd]
            rw [heq]
            refine ⟨by simp, ?_⟩
            simp only [listNoEmptyChoices, Bool.and_eq_true]
            refine ⟨hAhead, ?_⟩
            rcases hr2 : (t :: ts2).drop ((ast_from_tokens_sub (t :: ts2)).2 + 1) with _ | ⟨u, r3⟩
            · simp [choices_loop, listNoEmptyChoices]
            · rw [← hr2]
              have hlen2 : ((t :: ts2).drop ((ast_from_tokens_sub (t :: ts2)).2 + 1)).length ≤ N := by
                rw [List.length_drop]
                simp only [List.length_cons] at hlen ⊢
                omega
              refine (ih.2 _ hlen2 (by rw [hr2]; simp) (lastOk_drop _ _ hlast)).2
    exact ⟨hA, hB⟩

/-- A successful `ast_from_tokens` returns the partial parser's pattern,
with nothing left unconsumed. -/
theorem ast_from_tokens_ok (ts : List Token) (ast : Ast)
    (hok : ast_from_tokens ts = Except.ok ast) :
    ast = (ast_from_tokens_sub ts).1 ∧
      ¬ (ast_from_tokens_sub ts).2 < ts.length := by
  unfold ast_from_tokens at hok
  by_cases h : (ast_from_tokens_sub ts).2 < ts.length
  · rw [dif_pos h] at hok
    exact absurd hok (by simp)
  · rw [dif_neg h] at hok
    simp only [Except.ok.injEq] at hok
    exact ⟨hok.symm, h⟩

/-- Claim C2 as stated is false: the token sequence consisting of a lone
`OpenBrace` is accepted by the builder and yields an AST whose only node is
a `Choices` with an empty branch list. -/
theorem claim_C2_counterexample :
    ast_from_tokens [Token.OpenBrace] = Except.ok [AstItem.choices []] ∧
    astNoEmptyChoices [AstItem.choices []] = false :=
  ⟨parse_lone_open_brace, by decide⟩

/-- Claim C2 (amended): whenever `ast_from_tokens` succeeds on a token
sequence that does not end in an `OpenBrace`, no `Choices` node anywhere in
the returned AST has an empty branch list; the sole exception (an empty
branch list) arises exactly from a trailing unmatched `OpenBrace` as the
final token. -/
theorem claim_C2_amended (ts : List Token) (ast : Ast)
    (hok : ast_from_tokens ts = Except.ok ast)
    (hlast : ts.getLast? ≠ some Token.OpenBrace) :
    astNoEmptyChoices ast = true := by
  obtain ⟨rfl, -⟩ := ast_from_tokens_ok ts ast hok
  exact (parse_noEmpty_strong ts.length).1 ts (Nat.le_refl _) hlast

/-- Witness for the amended Claim C2 at the token sequence of `a{b,c}d`. -/
theorem claim_C2_amended_witness : astNoEmptyChoices astScenarioA = true :=
  claim_C2_amended (tokenize ['a', '{', 'b', ',', 'c', '}', 'd'] true) astScenarioA
    parse_scenarioA (by decide)

/-! ### Claim C4: the error condition of the builder -/

/-- The depth-counting scan for a stray structural token: walking the token
list left to right with a counter of currently open alternation groups, the
first `CloseBrace` or `Comma` encountered at depth zero — i.e. outside any
group — is returned together with its index; `none` if there is none. -/
def firstStray : List Token → Nat → Nat → Option (Token × Nat)
| [], _, _ => none
| Token.OpenBrace :: r, d, p => firstStray r (d + 1) (p + 1)
| Token.CloseBrace :: _, 0, p => some (Token.CloseBrace, p)
| Token.CloseBrace :: r, d + 1, p => firstStray r d (p + 1)
| Token.Comma :: _, 0, p => some (Token.Comma, p)
| Token.Comma :: r, d + 1, p => firstStray r (d + 1) (p + 1)
| Token.Term _ :: r, d, p => firstStray r d (p + 1)

/-- If dropping `n` tokens exposes `x` first, then `x` sits at index `n`. -/
theorem drop_head_getElem (ts : List Token) (n : Nat) (x : Token) (l : List Token)
    (h : ts.drop n = x :: l) : ts[n]? = some x := by
  have h1 : n < ts.length := by
    by_contra hc
    rw [List.drop_eq_nil_iff.mpr (by omega)] at h
    exact absurd h (by simp)
  rw [List.drop_eq_getElem_cons h1] at h
  simp only [List.cons.injEq] at h
  rw [List.getElem?_eq_getElem h1, h.1]

/-- The scan jumps over the segment the pattern parser consumes, from any
depth: the consumed segment contains no stray token (and either restores
the depth or swallows the rest of the input). -/
def StrayShiftPat (ts : List Token) : Prop :=
  ∀ d p, firstStray ts d p =
    firstStray (ts.drop (ast_from_tokens_sub ts).2) d (p + (ast_from_tokens_sub ts).2)

/-- The token at the pattern parser's stopping point, when in range, is a
`CloseBrace` or a `Comma`. -/
def StopKindPat (ts : List Token) : Prop :=
  ∀ tok, ts[(ast_from_tokens_sub ts).2]? = some tok →
    tok = Token.CloseBrace ∨ tok = Token.Comma

/-- The scan from positive depth jumps over the whole group body the branch
loop consumes, including its closing brace, coming back down one level. -/
def StrayShiftCho (ts : List Token) : Prop :=
  ∀ d p, firstStray ts (d + 1) p =
    firstStray (ts.drop ((choices_loop ts).2 + 1)) d (p + (choices_loop ts).2 + 1)

/-- The scan/parser correspondence, by strong induction on the token list
length: the shift and stop-kind properties hold for the pattern parser and
the branch loop on all inputs. -/
theorem stray_strong (N : Nat) :
    (∀ ts : List Token, ts.length ≤ N → StrayShiftPat ts ∧ StopKindPat ts) ∧
    (∀ ts : List Token, ts.length ≤ N → StrayShiftCho ts) := by
  induction N with
  | zero =>
    constructor
    · intro ts hlen
      match ts, hlen with
      | [], _ =>
        constructor
        · intro d p; simp [ast_from_tokens_sub, firstStray]
        · intro tok htok; simp [ast_from_tokens_sub] at htok
    · intro ts hlen
      match ts, hlen with
      | [], _ => intro d p; simp [choices_loop, firstStray]
  | succ N ih =>
    have hA : ∀ ts : List Token, ts.length ≤ N + 1 → StrayShiftPat ts ∧ StopKindPat ts := by
      intro ts hlen
      match ts with
      | [] =>
        constructor
        · intro d p; simp [ast_from_tokens_sub, firstStray]
        · intro tok htok; simp [ast_from_tokens_sub] at htok
      | Token.CloseBrace :: r =>
        constructor
        · intro d p; simp [ast_from_tokens_sub]
        · intro tok htok
          simp [ast_from_tokens_sub] at htok
          exact Or.inl htok.symm
      | Token.Comma :: r =>
        constructor
        · intro d p; simp [ast_from_tokens_sub]
        · intro tok htok
          simp [ast_from_tokens_sub] at htok
          exact Or.inr htok.symm
      | Token.Term s :: r =>
        have hrlen : r.length ≤ N := by simp only [List.length_cons] at hlen; omega
        have ihr := ih.1 r hrlen
        have hsub : (ast_from_tokens_sub (Token.Term s :: r)).2 =
            (ast_from_tokens_sub r).2 + 1 := by
          simp [ast_from_tokens_sub]
        constructor
        · intro d p
          rw [hsub, List.drop_succ_cons]
          show firstStray r d (p + 1) = _
          rw [ihr.1 d (p + 1)]
          congr 1
          omega
        · intro tok htok
          rw [hsub, List.getElem?_cons_succ] at htok
          exact ihr.2 tok htok
      | Token.OpenBrace :: r =>
        have hrlen : r.length ≤ N := by simp only [List.length_cons] at hlen; omega
        have ihrB := ih.2 r hrlen
        have hrestlen : (r.drop ((choices_loop r).2 + 1)).length ≤ N := by
          have hd2 : (r.drop ((choices_loop r).2 + 1)).length ≤ r.length := by
            rw [List.length_drop]; exact Nat.sub_le _ _
          omega
        have ihrest := ih.1 (r.drop ((choices_loop r).2 + 1)) hrestlen
        have hsub : (ast_from_tokens_sub (Token.OpenBrace :: r)).2 =
            1 + (choices_loop r).2 + 1 +
              (ast_from_tokens_sub (r.drop ((choices_loop r).2 + 1))).2 := by
          simp [ast_from_tokens_sub]
        constructor
        · intro d p
          rw [hsub]
          show firstStray r (d + 1) (p + 1) = _
          rw [ihrB d (p + 1)]
          rw [ihrest.1 d (p + 1 + (choices_loop r).2 + 1)]
          have hl : (Token.OpenBrace :: r).drop
              (1 + (choices_loop r).2 + 1 +
                (ast_from_tokens_sub (r.drop ((choices_loop r).2 + 1))).2) =
              (r.drop ((choices_loop r).2 + 1)).drop
                (ast_from_tokens_sub (r.drop ((choices_loop r).2 + 1))).2 := by
            rw [List.drop_drop]
            have he : ((choices_loop r).2 + 1 +
                (ast_from_tokens_sub (r.drop ((choices_loop r).2 + 1))).2) + 1 =
                1 + (choices_loop r).2 + 1 +
                  (ast_from_tokens_sub (r.drop ((choices_loop r).2 + 1))).2 := by
              omega
            rw [← he, List.drop_succ_cons]
          rw [hl]
          congr 1
          omega
        · intro tok htok
          rw [hsub] at htok
          have hidx : 1 + (choices_loop r).2 + 1 +
              (ast_from_tokens_sub (r.drop ((choices_loop r).2 + 1))).2 =
              ((choices_loop r).2 + 1 +
                (ast_from_tokens_sub (r.drop ((choices_loop r).2 + 1))).2) + 1 := by
            omega
          rw [hidx, List.getElem?_cons_succ, ← List.getElem?_drop] at htok
          exact ihrest.2 tok htok
    have hB : ∀ ts : List Token, ts.length ≤ N + 1 → StrayShiftCho ts := by
      intro ts hlen
      match ts with
      | [] => intro d p; simp [choices_loop, firstStray]
      | t :: ts2 =>
        have hpa := hA (t :: ts2) hlen
        intro d p
        rw [hpa.1 (d + 1) p]
        rcases hd : (t :: ts2).drop (ast_from_tokens_sub (t :: ts2)).2 with _ | ⟨tok, tail⟩
        · have heq2 : (choices_loop (t :: ts2)).2 = (ast_from_tokens_sub (t :: ts2)).2 := by
            simp only [choices_loop]
            rw [hd]
          rw [heq2]
          have hnil : (t :: ts2).drop ((ast_from_tokens_sub (t :: ts2)).2 + 1) = [] := by
            rw [List.drop_eq_nil_iff] at hd ⊢
            omega
          rw [hnil]
          simp [firstStray]
        · have htail : (t :: ts2).drop ((ast_from_tokens_sub (t :: ts2)).2 + 1) = tail := by
            have h2 := congrArg (List.drop 1) hd
            simpa [List.drop_drop] using h2
          cases tok with
          | CloseBrace =>
            have heq2 : (choices_loop (t :: ts2)).2 = (ast_from_tokens_sub (t :: ts2)).2 := by
              simp only [choices_loop]
              rw [hd]
            rw [heq2]
            show firstStray tail d (p + (ast_from_tokens_sub (t :: ts2)).2 + 1) = _
            rw [htail]
          | Comma =>
            have heq2 : (choices_loop (t :: ts2)).2 =
                (ast_from_tokens_sub (t :: ts2)).2 + 1 +
                  (choices_loop ((t :: ts2).drop
                    ((ast_from_tokens_sub (t :: ts2)).2 + 1))).2 := by
              simp only [choices_loop]
              rw [hd]
            rw [heq2, htail]
            show firstStray tail (d + 1) (p + (ast_from_tokens_sub (t :: ts2)).2 + 1) = _
            have hlen2 : tail.length ≤ N := by
              have h3 := congrArg List.length hd
              rw [List.length_drop] at h3
              simp only [List.length_cons] at h3 hlen ⊢
              omega
            rw [ih.2 tail hlen2 d (p + (ast_from_tokens_sub (t :: ts2)).2 + 1)]
            have hlist : (t :: ts2).drop
                ((ast_from_tokens_sub (t :: ts2)).2 + 1 + (choices_loop tail).2 + 1) =
                tail.drop ((choices_loop tail).2 + 1) := by
              rw [← htail, List.drop_drop]
              congr 1
            rw [hlist]
            congr 1
            omega
          | Term s =>
            exfalso
            have hget := drop_head_getElem _ _ _ _ hd
            cases hpa.2 _ hget with
            | inl hk => exact absurd hk (by simp)
            | inr hk => exact absurd hk (by simp)
          | OpenBrace =>
            exfalso
            have hget := drop_head_getElem _ _ _ _ hd
            cases hpa.2 _ hget with
            | inl hk => exact absurd hk (by simp)
            | inr hk => exact absurd hk (by simp)
    exact ⟨hA, hB⟩

/-- Claim C4: `ast_from_tokens` fails exactly when a `CloseBrace` or `Comma`
occurs outside any alternation group (as detected by the depth scan
`firstStray`), and in that case the error carries precisely that token and
its index; in particular an `OpenBrace` with no matching `CloseBrace` never
causes an error — whenever the scan finds no stray token the build
succeeds. -/
theorem claim_C4 (ts : List Token) :
    (firstStray ts 0 0 = none → ∃ ast, ast_from_tokens ts = Except.ok ast) ∧
    (∀ t i, firstStray ts 0 0 = some (t, i) →
      ast_from_tokens ts = Except.error (t, i) ∧ ts[i]? = some t ∧
        (t = Token.CloseBrace ∨ t = Token.Comma)) := by
  have hA := (stray_strong ts.length).1 ts (Nat.le_refl _)
  have hshift := hA.1 0 0
  by_cases h : (ast_from_tokens_sub ts).2 < ts.length
  · have hcons := List.drop_eq_getElem_cons h
    have hget : ts[(ast_from_tokens_sub ts).2]? =
        some ts[(ast_from_tokens_sub ts).2] := List.getElem?_eq_getElem h
    have hkind := hA.2 _ hget
    have hsome : firstStray ts 0 0 =
        some (ts[(ast_from_tokens_sub ts).2], (ast_from_tokens_sub ts).2) := by
      rw [hshift, hcons]
      cases hkind with
      | inl hk => rw [hk]; simp [firstStray]
      | inr hk => rw [hk]; simp [firstStray]
    constructor
    · intro hnone
      rw [hsome] at hnone
      exact absurd hnone (by simp)
    · intro t i hsome2
      rw [hsome] at hsome2
      simp only [Option.some.injEq, Prod.mk.injEq] at hsome2
      obtain ⟨ht, hi⟩ := hsome2
      subst hi
      refine ⟨?_, ?_, ?_⟩
      · unfold ast_from_tokens
        rw [dif_pos h, List.get_eq_getElem]
        rw [ht]
      · rw [← ht]
        exact hget
      · rw [← ht]
        exact hkind
  · have hnil : ts.drop (ast_from_tokens_sub ts).2 = [] :=
      List.drop_eq_nil_iff.mpr (by omega)
    have hnone : firstStray ts 0 0 = none := by
      rw [hshift, hnil]
      simp [firstStray]
    constructor
    · intro _
      refine ⟨(ast_from_tokens_sub ts).1, ?_⟩
      unfold ast_from_tokens
      rw [dif_neg h]
    · intro t i hsome
      rw [hnone] at hsome
      exact absurd hsome (by simp)

/-- Witness for Claim C4 at the token sequence of `a}b` (spec Scenario E):
the stray `CloseBrace` at index 1 is reported. -/
theorem claim_C4_witness :
    ast_from_tokens [Token.Term ['a'], Token.CloseBrace, Token.Term ['b']] =
      Except.error (Token.CloseBrace, 1) ∧
    [Token.Term ['a'], Token.CloseBrace, Token.Term ['b']][1]? =
      some Token.CloseBrace ∧
    (Token.CloseBrace = Token.CloseBrace ∨ Token.CloseBrace = Token.Comma) :=
  (claim_C4 [Token.Term ['a'], Token.CloseBrace, Token.Term ['b']]).2
    Token.CloseBrace 1 (by decide)

end BraceExpand